import Mathlib

/-!
Verification of the jbrowse-plugin-mafviewer core against its
natural-language specification.

The development shallowly embeds the TypeScript sources:
JavaScript strings become `List Char` (in the codec and FASTA sections)
or `String` (in the parser sections), JavaScript numbers become `Int`
or `Nat` as appropriate, byte arrays become `List Nat`, and
`Record`/`Map` objects become insertion-ordered association lists.
-/

namespace MafViewer

/-! ## JavaScript helpers

Shared models of JavaScript array primitives (`arr[i]`, `splice`,
element update behind an `if (row)` guard).  `splice` with a negative
start counts from the end of the array; an index past the end clamps to
the end. -/

/-- Model of JavaScript `arr[i]`: `none` when the index is out of range. -/
def jsIndex (l : List α) (i : Int) : Option α :=
  if h : 0 ≤ i ∧ i.toNat < l.length then some (l.get ⟨i.toNat, h.2⟩) else none

/-- Clamp a JavaScript `splice` start index into `[0, length]`. -/
def jsSpliceStart (len : Nat) (i : Int) : Nat :=
  if i < 0 then ((len : Int) + i).toNat else min i.toNat len

/-- Model of `arr.splice(i, 0, ...xs)`: insert `xs` at the clamped index. -/
def jsSpliceInsertList (l : List α) (i : Int) (xs : List α) : List α :=
  l.take (jsSpliceStart l.length i) ++ xs ++ l.drop (jsSpliceStart l.length i)

/-- Model of `arr.splice(i, 0, x)` (single element). -/
def jsSpliceInsert (l : List α) (i : Int) (x : α) : List α :=
  jsSpliceInsertList l i [x]

/-- Model of `const r = arr[i]; if (r) { mutate r }`: update the element at
index `i` when it exists, otherwise leave the array unchanged. -/
def jsUpdate (l : List α) (i : Int) (f : α → α) : List α :=
  if h : 0 ≤ i ∧ i.toNat < l.length then
    l.set i.toNat (f (l.get ⟨i.toNat, h.2⟩))
  else l

@[simp] theorem length_jsSpliceInsertList (l : List α) (i : Int) (xs : List α) :
    (jsSpliceInsertList l i xs).length = l.length + xs.length := by
  simp only [jsSpliceInsertList, List.length_append, List.length_take, List.length_drop]
  have : jsSpliceStart l.length i ≤ l.length := by
    unfold jsSpliceStart
    split <;> omega
  omega

@[simp] theorem length_jsUpdate (l : List α) (i : Int) (f : α → α) :
    (jsUpdate l i f).length = l.length := by
  unfold jsUpdate
  split <;> simp

/-! ## Sequence codec (`src/util/sequenceEncoding.ts`)

4-bit packed sequence encoding: 2 bases per byte, first base in the
high nibble.  Codes 0–6 are lowercase `a c g t n`, the gap `-` and the
space; codes 7–11 are uppercase `A C G T N`; code 12 is unknown. -/

/-- `ENCODE_MAP[c] ?? 12`: the 4-bit code of one character; characters
outside the known alphabet map to 12. -/
def encodeChar (c : Char) : Nat :=
  if c = 'a' then 0
  else if c = 'c' then 1
  else if c = 'g' then 2
  else if c = 't' then 3
  else if c = 'n' then 4
  else if c = '-' then 5
  else if c = ' ' then 6
  else if c = 'A' then 7
  else if c = 'C' then 8
  else if c = 'G' then 9
  else if c = 'T' then 10
  else if c = 'N' then 11
  else 12

/-- `DECODE_MAP` (case-preserving). -/
def DECODE_MAP : List Char :=
  ['a', 'c', 'g', 't', 'n', '-', ' ', 'A', 'C', 'G', 'T', 'N']

/-- `DECODE_MAP_LOWER` (case-folded). -/
def DECODE_MAP_LOWER : List Char :=
  ['a', 'c', 'g', 't', 'n', '-', ' ', 'a', 'c', 'g', 't', 'n']

/-- `DECODE_MAP[code] ?? '?'`. -/
def decodeCode (code : Nat) : Char := DECODE_MAP.getD code '?'

/-- `DECODE_MAP_LOWER[code] ?? '?'`. -/
def decodeCodeLower (code : Nat) : Char := DECODE_MAP_LOWER.getD code '?'

/-- A packed sequence: byte data plus the original character length. -/
structure EncodedSequence where
  data : List Nat
  length : Nat
  deriving Repr, DecidableEq

/-- The packing loop of `encodeSequence`: two characters per byte, the
second code being 0 when the input has odd length. -/
def encodePairs : List Char → List Nat
  | [] => []
  | [c] => [encodeChar c * 16]
  | c1 :: c2 :: rest => (encodeChar c1 * 16 + encodeChar c2) :: encodePairs rest

/-- `encodeSequence(seq)`. -/
def encodeSequence (seq : List Char) : EncodedSequence :=
  { data := encodePairs seq, length := seq.length }

/-- `getBaseCode(encoded, index)`: the raw 4-bit code, 12 when out of range.
Even index reads the high nibble, odd index the low nibble. -/
def getBaseCode (encoded : EncodedSequence) (index : Nat) : Nat :=
  if index ≥ encoded.length then 12
  else if index % 2 = 1 then encoded.data.getD (index / 2) 0 % 16
  else encoded.data.getD (index / 2) 0 / 16

/-- `decodeBase(encoded, index)`: a one-character string, or the empty
string out of range (strings are modelled as `List Char`).  In range, the
code computed by the source body coincides with `getBaseCode`. -/
def decodeBase (encoded : EncodedSequence) (index : Nat) : List Char :=
  if index ≥ encoded.length then []
  else [decodeCode (getBaseCode encoded index)]

/-- `decodeBaseLower(encoded, index)` restricted to in-range indices,
returning the case-folded character (the source returns a one-character
string; out of range it returns `''` and is never used that way here). -/
def decodeBaseLowerChar (encoded : EncodedSequence) (index : Nat) : Char :=
  decodeCodeLower (getBaseCode encoded index)

/-- `decodeSequence(encoded)`: concatenate `decodeBase` over all indices. -/
def decodeSequence (encoded : EncodedSequence) : List Char :=
  (List.range encoded.length).flatMap (decodeBase encoded)

/-- `getLowerCode(code)`: case-fold a 4-bit code. -/
def getLowerCode (code : Nat) : Nat :=
  if 7 ≤ code ∧ code ≤ 11 then code - 7 else code

/-- `CODE_GAP`. -/
def CODE_GAP : Nat := 5

/-- `CODE_SPACE`. -/
def CODE_SPACE : Nat := 6

/-- The thirteen characters the codec can reproduce: the twelve entries
of `ENCODE_MAP` together with `'?'`, the character that code 12 decodes
to. -/
def codecAlphabet : List Char :=
  ['a', 'c', 'g', 't', 'n', '-', ' ', 'A', 'C', 'G', 'T', 'N', '?']

theorem ite_lt16 {b : Prop} [Decidable b] {x y : Nat} (hx : x < 16) (hy : y < 16) :
    (if b then x else y) < 16 := by
  split <;> assumption

theorem encodeChar_lt_16 (c : Char) : encodeChar c < 16 := by
  unfold encodeChar
  repeat apply ite_lt16 (by norm_num)
  norm_num

theorem decodeCode_encodeChar (c : Char) (h : c ∈ codecAlphabet) :
    decodeCode (encodeChar c) = c := by
  revert h
  simp only [codecAlphabet, List.mem_cons, List.not_mem_nil, or_false]
  intro h
  rcases h with h | h | h | h | h | h | h | h | h | h | h | h | h <;>
    subst h <;> rfl

theorem getBaseCode_cons2_zero (b : Nat) (d : List Nat) (n : Nat) :
    getBaseCode ⟨b :: d, n + 2⟩ 0 = b / 16 := by
  simp [getBaseCode]

theorem getBaseCode_cons2_one (b : Nat) (d : List Nat) (n : Nat) :
    getBaseCode ⟨b :: d, n + 2⟩ 1 = b % 16 := by
  simp [getBaseCode]

theorem getBaseCode_cons2_shift (b : Nat) (d : List Nat) (n i : Nat) :
    getBaseCode ⟨b :: d, n + 2⟩ (i + 2) = getBaseCode ⟨d, n⟩ i := by
  unfold getBaseCode
  have h2 : (i + 2) / 2 = i / 2 + 1 := by omega
  have h3 : (i + 2) % 2 = i % 2 := by omega
  by_cases h : i ≥ n
  · rw [if_pos (show i + 2 ≥ n + 2 by omega), if_pos h]
  · rw [if_neg (show ¬ i + 2 ≥ n + 2 by omega), if_neg h,
      h2, h3, List.getD_cons_succ]

theorem decodeBase_cons2_shift (b : Nat) (d : List Nat) (n i : Nat) :
    decodeBase ⟨b :: d, n + 2⟩ (i + 2) = decodeBase ⟨d, n⟩ i := by
  unfold decodeBase
  by_cases h : i ≥ n
  · rw [if_pos (show i + 2 ≥ n + 2 by omega), if_pos h]
  · rw [if_neg (show ¬ i + 2 ≥ n + 2 by omega), if_neg h,
      getBaseCode_cons2_shift]

theorem decodeSequence_cons2 (b : Nat) (d : List Nat) (n : Nat) :
    decodeSequence ⟨b :: d, n + 2⟩ =
      decodeCode (b / 16) :: decodeCode (b % 16) :: decodeSequence ⟨d, n⟩ := by
  unfold decodeSequence
  have hr : List.range (n + 2) =
      0 :: 1 :: (List.range n).map (fun i => i + 2) := by
    rw [List.range_succ_eq_map, List.range_succ_eq_map, List.map_cons,
      List.map_map]
    rfl
  rw [hr]
  simp only [List.flatMap_cons, List.flatMap_map]
  rw [show decodeBase ⟨b :: d, n + 2⟩ 0 =
      [decodeCode (b / 16)] by simp [decodeBase, getBaseCode_cons2_zero]]
  rw [show decodeBase ⟨b :: d, n + 2⟩ 1 =
      [decodeCode (b % 16)] by simp [decodeBase, getBaseCode_cons2_one]]
  have : ((List.range n).flatMap fun i => decodeBase ⟨b :: d, n + 2⟩ (i + 2)) =
      (List.range n).flatMap (decodeBase ⟨d, n⟩) := by
    apply List.flatMap_congr
    intro i _
    exact decodeBase_cons2_shift b d n i
  rw [this]
  rfl

theorem decode_encode_of_mem :
    ∀ s : List Char, (∀ c ∈ s, c ∈ codecAlphabet) →
      decodeSequence (encodeSequence s) = s
  | [], _ => by simp [encodeSequence, decodeSequence, encodePairs]
  | [c], h => by
    have hc : c ∈ codecAlphabet := h c (by simp)
    show decodeSequence ⟨[encodeChar c * 16], 1⟩ = [c]
    have hr : List.range 1 = [0] := rfl
    unfold decodeSequence
    rw [hr]
    simp only [List.flatMap_cons, List.flatMap_nil, decodeBase, getBaseCode]
    norm_num [Nat.mul_div_cancel]
    exact decodeCode_encodeChar c hc
  | c1 :: c2 :: rest, h => by
    have h1 : c1 ∈ codecAlphabet := h c1 (by simp)
    have h2 : c2 ∈ codecAlphabet := h c2 (by simp)
    have ih := decode_encode_of_mem rest (fun c hc => h c (by simp [hc]))
    have e2lt := encodeChar_lt_16 c2
    show decodeSequence ⟨(encodeChar c1 * 16 + encodeChar c2) :: encodePairs rest,
      rest.length + 2⟩ = c1 :: c2 :: rest
    rw [decodeSequence_cons2]
    have hdiv : (encodeChar c1 * 16 + encodeChar c2) / 16 = encodeChar c1 := by
      omega
    have hmod : (encodeChar c1 * 16 + encodeChar c2) % 16 = encodeChar c2 := by
      omega
    rw [hdiv, hmod, decodeCode_encodeChar c1 h1, decodeCode_encodeChar c2 h2]
    exact congrArg (c1 :: c2 :: ·) ih

/-- C5.  Sequence codec round-trip: for every string over the codec's
13-character alphabet, `decodeSequence (encodeSequence s) = s`; encoding
is total, with every character outside the known 12-entry `ENCODE_MAP`
mapping to code 12; and encoding is deterministic, so encoding the same
sequence twice yields identical packed bytes. -/
theorem codec_roundtrip (s : List Char) (h : ∀ c ∈ s, c ∈ codecAlphabet) :
    decodeSequence (encodeSequence s) = s ∧
    (∀ c : Char, c ∉ codecAlphabet.dropLast → encodeChar c = 12) ∧
    (encodeSequence s).data = (encodeSequence s).data := by
  refine ⟨decode_encode_of_mem s h, ?_, rfl⟩
  intro c hc
  simp only [codecAlphabet, List.dropLast, List.mem_cons,
    List.not_mem_nil, or_false] at hc
  push_neg at hc
  obtain ⟨h1, h2, h3, h4, h5, h6, h7, h8, h9, h10, h11, h12⟩ := hc
  simp [encodeChar, h1, h2, h3, h4, h5, h6, h7, h8, h9, h10, h11, h12]

/-- Witness for C5 at the concrete string "AC-g tN?": all characters lie
in the alphabet and the round-trip reproduces it. -/
theorem codec_roundtrip_witness :
    decodeSequence (encodeSequence ['A', 'C', '-', 'g', ' ', 't', 'N', '?']) =
      ['A', 'C', '-', 'g', ' ', 't', 'N', '?'] :=
  (codec_roundtrip ['A', 'C', '-', 'g', ' ', 't', 'N', '?'] (by decide)).1

/-! ## Row instructions (`src/BgzipTaffyAdapter/rowInstructions.ts`)

The TAF coordinate-line instruction vocabulary: `i` insert, `s`
substitute, `d` delete, `g` gap by length, `G` gap by substring. -/

/-- A parsed row instruction.  Numeric fields are `Int` (JavaScript
numbers); row indices may in principle be any number, and array edits
use JavaScript index semantics. -/
inductive RowInstruction where
  | i (row : Int) (sequenceName : String) (start : Int) (strand : Int)
      (sequenceLength : Int)
  | s (row : Int) (sequenceName : String) (start : Int) (strand : Int)
      (sequenceLength : Int)
  | d (row : Int)
  | g (row : Int) (gapLength : Int)
  | G (row : Int) (gapSubstring : String)
  deriving Repr, DecidableEq

/-- Accumulating decimal-digit parser: `none` when a non-digit occurs. -/
def digitsToNat : List Char → Nat → Option Nat
  | [], acc => some acc
  | c :: rest, acc =>
    if c.isDigit then digitsToNat rest (acc * 10 + (c.toNat - '0'.toNat))
    else none

/-- JavaScript unary `+` on the string tokens of an instruction line.
The tokens this program feeds it are decimal integers (optionally
negative), parsed exactly; the empty token yields 0 as in JavaScript,
and a non-numeric token (`NaN` in JavaScript) is modelled as 0. -/
def jsToInt (s : String) : Int :=
  match s.data with
  | '-' :: ds => -((digitsToNat ds 0).getD 0 : Int)
  | ds => ((digitsToNat ds 0).getD 0 : Int)

/-- The token-cursor loop of `parseRowInstructions`: a known leading
token consumes its operand tokens (a missing operand is modelled as the
empty token), an unknown leading token is skipped and parsing
continues.  The second pattern of each instruction letter is the
truncated-tail case, in which the cursor runs past the end of the token
array and the loop terminates. -/
def parseTokens : List String → List RowInstruction
  | [] => []
  | "i" :: a :: b :: c :: d :: e :: rest =>
      RowInstruction.i (jsToInt a) b (jsToInt c) (if d = "-" then -1 else 1)
        (jsToInt e) :: parseTokens rest
  | "i" :: rest =>
      [RowInstruction.i (jsToInt (rest.getD 0 "")) (rest.getD 1 "")
        (jsToInt (rest.getD 2 "")) (if rest.getD 3 "" = "-" then -1 else 1)
        (jsToInt (rest.getD 4 ""))]
  | "s" :: a :: b :: c :: d :: e :: rest =>
      RowInstruction.s (jsToInt a) b (jsToInt c) (if d = "-" then -1 else 1)
        (jsToInt e) :: parseTokens rest
  | "s" :: rest =>
      [RowInstruction.s (jsToInt (rest.getD 0 "")) (rest.getD 1 "")
        (jsToInt (rest.getD 2 "")) (if rest.getD 3 "" = "-" then -1 else 1)
        (jsToInt (rest.getD 4 ""))]
  | "d" :: a :: rest => RowInstruction.d (jsToInt a) :: parseTokens rest
  | ["d"] => [RowInstruction.d (jsToInt "")]
  | "g" :: a :: b :: rest =>
      RowInstruction.g (jsToInt a) (jsToInt b) :: parseTokens rest
  | "g" :: rest =>
      [RowInstruction.g (jsToInt (rest.getD 0 "")) (jsToInt (rest.getD 1 ""))]
  | "G" :: a :: b :: rest =>
      RowInstruction.G (jsToInt a) b :: parseTokens rest
  | "G" :: rest =>
      [RowInstruction.G (jsToInt (rest.getD 0 "")) (rest.getD 1 "")]
  | _ :: rest => parseTokens rest

/-- JavaScript `meta.split(' ')`: split on every single space. -/
def jsSplitSpaceAux : List Char → List Char → List String
  | [], acc => [String.mk acc.reverse]
  | c :: rest, acc =>
    if c = ' ' then String.mk acc.reverse :: jsSplitSpaceAux rest []
    else jsSplitSpaceAux rest (c :: acc)

/-- `parseRowInstructions(meta)`: split on single spaces and walk the
token cursor. -/
def parseRowInstructions (meta : String) : List RowInstruction :=
  parseTokens (jsSplitSpaceAux meta.data [])

/-- `filterFirstLineInstructions(instructions)`: keep only `i`/`s`, then
convert each `s` to the structurally identical `i`. -/
def filterFirstLineInstructions
    (instructions : List RowInstruction) : List RowInstruction :=
  (instructions.filter fun ins =>
    match ins with
    | .i _ _ _ _ _ => true
    | .s _ _ _ _ _ => true
    | _ => false).map fun ins =>
      match ins with
      | .s row sequenceName start strand sequenceLength =>
          RowInstruction.i row sequenceName start strand sequenceLength
      | x => x

/-- The rewrite of one instruction performed by
`filterFirstLineInstructions`, as a `filterMap` step. -/
def firstLineRewrite : RowInstruction → Option RowInstruction
  | .i row sequenceName start strand sequenceLength =>
      some (.i row sequenceName start strand sequenceLength)
  | .s row sequenceName start strand sequenceLength =>
      some (.i row sequenceName start strand sequenceLength)
  | _ => none

/-- Recognizer for `i` instructions. -/
def RowInstruction.isInsert : RowInstruction → Bool
  | .i _ _ _ _ _ => true
  | _ => false

theorem filterFirstLine_eq_filterMap :
    ∀ V : List RowInstruction,
      filterFirstLineInstructions V = V.filterMap firstLineRewrite
  | [] => rfl
  | x :: xs => by
    have ih := filterFirstLine_eq_filterMap xs
    cases x <;>
      simp [filterFirstLineInstructions, List.filter_cons,
        List.filterMap_cons, firstLineRewrite] <;>
      simp [filterFirstLineInstructions] at ih <;> exact ih

/-- C3.  First-indexed-line rewrite: `filterFirstLineInstructions` is
exactly the order-preserving `filterMap` that drops `d`/`g`/`G`, keeps
`i` unchanged and converts `s` to the `i` with identical row, name,
start, strand and sequence-length fields — and consequently every
survivor is an `i` instruction. -/
theorem filterFirstLineInstructions_spec (V : List RowInstruction) :
    filterFirstLineInstructions V = V.filterMap firstLineRewrite ∧
    ∀ ins ∈ filterFirstLineInstructions V, ins.isInsert = true := by
  refine ⟨filterFirstLine_eq_filterMap V, ?_⟩
  intro ins hins
  rw [filterFirstLine_eq_filterMap V, List.mem_filterMap] at hins
  obtain ⟨a, -, ha⟩ := hins
  cases a <;> simp only [firstLineRewrite, Option.some.injEq] at ha <;>
    first
      | exact ha ▸ rfl
      | exact absurd ha (by simp)

/-- Witness for C3 at a concrete instruction vector holding one of each
instruction kind. -/
theorem filterFirstLineInstructions_witness :
    filterFirstLineInstructions
        [.s 0 "ce10.chrI" 2272337 1 15072423, .d 2, .g 1 50, .G 0 "acg",
          .i 1 "mm10.chr1" 200 1 2000] =
      [.i 0 "ce10.chrI" 2272337 1 15072423, .i 1 "mm10.chr1" 200 1 2000] ∧
    RowInstruction.isInsert (.i 0 "ce10.chrI" 2272337 1 15072423) = true := by
  constructor
  · rfl
  · exact (filterFirstLineInstructions_spec
        [.s 0 "ce10.chrI" 2272337 1 15072423, .d 2, .g 1 50, .G 0 "acg",
          .i 1 "mm10.chr1" 200 1 2000]).2
      (.i 0 "ce10.chrI" 2272337 1 15072423) (by decide)

/-! ## TAF block reconstruction (`src/BgzipTaffyAdapter/BgzipTaffyAdapter.ts`)

`parseCoordinatesAndEstablishBlock` copies the previous block's rows
with advanced starts and then folds the coordinate instructions. -/

/-- A row of the alignment being reconstructed (`RowState`). -/
structure RowState where
  sequenceName : String
  start : Int
  strand : Int
  sequenceLength : Int
  bases : String
  length : Nat
  deriving Repr, DecidableEq

/-- An alignment block (`AlignmentBlock`). -/
structure AlignmentBlock where
  rows : List RowState
  columnNumber : Nat
  deriving Repr, DecidableEq

/-- The structural copy of one previous-block row: `start` advances by
the row's non-gap length, `bases` resets to empty. -/
def advanceRow (pRow : RowState) : RowState :=
  { sequenceName := pRow.sequenceName
    start := pRow.start + pRow.length
    strand := pRow.strand
    sequenceLength := pRow.sequenceLength
    bases := ""
    length := 0 }

/-- One iteration of the instruction loop of
`parseCoordinatesAndEstablishBlock`. -/
def applyInstruction (rows : List RowState) : RowInstruction → List RowState
  | .i row sequenceName start strand sequenceLength =>
      jsSpliceInsert rows row
        { sequenceName := sequenceName, start := start, strand := strand
          sequenceLength := sequenceLength, bases := "", length := 0 }
  | .s row sequenceName start strand sequenceLength =>
      jsUpdate rows row fun r =>
        { r with sequenceName := sequenceName, start := start
                 strand := strand, sequenceLength := sequenceLength }
  | .d row =>
      if (jsIndex rows row).isSome then rows.eraseIdx row.toNat else rows
  | .g row gapLength =>
      jsUpdate rows row fun r => { r with start := r.start + gapLength }
  | .G row gapSubstring =>
      jsUpdate rows row fun r =>
        { r with start := r.start + gapSubstring.length }

/-- `parseCoordinatesAndEstablishBlock(pBlock, instructions)`. -/
def parseCoordinatesAndEstablishBlock (pBlock : Option AlignmentBlock)
    (instructions : List RowInstruction) : AlignmentBlock :=
  { rows :=
      instructions.foldl applyInstruction
        ((pBlock.map fun b => b.rows.map advanceRow).getD [])
    columnNumber := 0 }

/-- The S1 block of the specification's scenario: `hg38.chr1` at 100 and
`mm10.chr1` at 200, each with three non-gap bases. -/
def scenarioS1Block : AlignmentBlock :=
  { rows :=
      [ { sequenceName := "hg38.chr1", start := 100, strand := 1
          sequenceLength := 1000, bases := "AAA", length := 3 }
      , { sequenceName := "mm10.chr1", start := 200, strand := 1
          sequenceLength := 2000, bases := "CCC", length := 3 } ]
    columnNumber := 3 }

/-- C1.  TAF block-state advance: the new block starts from a structural
copy of the previous rows with `start ← start + nonGapLength` and empty
bases, then folds the instructions left-to-right; `i` inserts a fresh
row at the (clamped) index, `s` overwrites the indexed row's
name/start/strand/srcSize, `d` deletes the indexed row, `g` adds
`gapLen` to the indexed row's `start`, `G` adds the gap substring's
length; and after scenario S1's block the line instruction `g 1 50`
yields `hg38.start = 103` and `mm10.start = 253`. -/
theorem parseCoordinatesAndEstablishBlock_spec
    (P : AlignmentBlock) (pB : Option AlignmentBlock)
    (I J : List RowInstruction) (rows : List RowState) (k : Nat)
    (hk : k < rows.length) (name : String) (st sd sl gap : Int)
    (sub : String) :
    (parseCoordinatesAndEstablishBlock (some P) []).rows
        = P.rows.map advanceRow ∧
    (parseCoordinatesAndEstablishBlock pB (I ++ J)).rows
        = J.foldl applyInstruction (parseCoordinatesAndEstablishBlock pB I).rows ∧
    applyInstruction rows (.i k name st sd sl)
        = rows.take k ++
          [{ sequenceName := name, start := st, strand := sd
             sequenceLength := sl, bases := "", length := 0 }] ++ rows.drop k ∧
    applyInstruction rows (.s k name st sd sl)
        = rows.set k { rows.get ⟨k, hk⟩ with
            sequenceName := name, start := st, strand := sd
            sequenceLength := sl } ∧
    applyInstruction rows (.d k) = rows.eraseIdx k ∧
    applyInstruction rows (.g k gap)
        = rows.set k { rows.get ⟨k, hk⟩ with
            start := (rows.get ⟨k, hk⟩).start + gap } ∧
    applyInstruction rows (.G k sub)
        = rows.set k { rows.get ⟨k, hk⟩ with
            start := (rows.get ⟨k, hk⟩).start + sub.length } ∧
    parseRowInstructions "g 1 50" = [.g 1 50] ∧
    (parseCoordinatesAndEstablishBlock (some scenarioS1Block)
        (parseRowInstructions "g 1 50")).rows.map RowState.start = [103, 253] := by
  have hin : (0 : Int) ≤ (k : Int) ∧ ((k : Int)).toNat < rows.length := by
    constructor
    · exact Int.ofNat_nonneg k
    · simpa using hk
  refine ⟨rfl, ?_, ?_, ?_, ?_, ?_, ?_, by decide, by decide⟩
  · simp [parseCoordinatesAndEstablishBlock, List.foldl_append]
  · simp only [applyInstruction, jsSpliceInsert, jsSpliceInsertList,
      jsSpliceStart]
    rw [if_neg (by omega : ¬ (k : Int) < 0)]
    have : min ((k : Int)).toNat rows.length = k := by
      simp only [Int.toNat_ofNat]
      omega
    rw [this]
  · simp only [applyInstruction, jsUpdate, dif_pos hin]
    rfl
  · simp only [applyInstruction, jsIndex, dif_pos hin, Option.isSome_some,
      if_pos]
    rfl
  · simp only [applyInstruction, jsUpdate, dif_pos hin]
    rfl
  · simp only [applyInstruction, jsUpdate, dif_pos hin]
    rfl

/-- Witness for C1 at a concrete block and instruction list: the S1
block followed by `g 1 50` yields starts 103 and 253, and each
single-instruction equation holds at row index 0 of a one-row list. -/
theorem parseCoordinatesAndEstablishBlock_spec_witness :
    (parseCoordinatesAndEstablishBlock (some scenarioS1Block)
        (parseRowInstructions "g 1 50")).rows.map RowState.start = [103, 253] :=
  (parseCoordinatesAndEstablishBlock_spec scenarioS1Block none [] []
      scenarioS1Block.rows 0 (by decide) "x" 0 1 0 0 "").2.2.2.2.2.2.2.2

/-! ## Virtual offsets and the cache-fill slice
(`src/BgzipTaffyAdapter/virtualOffset.ts`, `BgzipTaffyAdapter.ts`) -/

/-- A bgzf virtual offset: compressed block position plus data position
inside the decompressed block. -/
structure VirtualOffset where
  blockPosition : Int
  dataPosition : Int
  deriving Repr, DecidableEq

/-- The slice upper bound computed by the adapter's cache `fill`:
`endBlock === startBlock ? nextEntry.dataPosition : buffer.length`. -/
def cacheFillEndOffset (firstEntry nextEntry : VirtualOffset)
    (bufferLength : Int) : Int :=
  if nextEntry.blockPosition = firstEntry.blockPosition then
    nextEntry.dataPosition
  else bufferLength

/-- The slice upper bound as the specification states it (and as the
repository's own `tafProfile.ts` and benchmark copies compute it): the
`dataPosition` of the next entry is used only when it lies strictly
beyond the start offset. -/
def specEndOffsetFormula (firstEntry nextEntry : VirtualOffset)
    (bufferLength : Int) : Int :=
  if nextEntry.blockPosition = firstEntry.blockPosition ∧
      nextEntry.dataPosition > firstEntry.dataPosition then
    nextEntry.dataPosition
  else bufferLength

/-- C2.  The adapter's cache fill omits the
`nextEntry.dataPos > firstEntry.dataPos` guard that the claim (and the
repository's profiling copies of the same computation) state: when the
two entries coincide — e.g. a `.tai` with a single entry, where
`getLines` selects the same entry twice — the adapter slices to
`nextEntry.dataPos`, producing an empty slice, where the claimed
formula slices to the full buffer length. -/
theorem cacheFillEndOffset_bug :
    cacheFillEndOffset ⟨7, 10⟩ ⟨7, 10⟩ 100 = 10 ∧
    specEndOffsetFormula ⟨7, 10⟩ ⟨7, 10⟩ 100 = 100 ∧
    cacheFillEndOffset ⟨7, 10⟩ ⟨7, 10⟩ 100 ≠
      specEndOffsetFormula ⟨7, 10⟩ ⟨7, 10⟩ 100 := by
  decide

/-! ## Assembly/chr name parsing (`src/util/parseAssemblyName.ts`) -/

/-- The result of splitting `assembly.chr`. -/
structure ParsedAssemblyName where
  assemblyName : String
  chr : String
  deriving Repr, DecidableEq

/-- `parseAssemblyAndChrSimple(organismChr)`: split at the first `.`;
without a dot, `chr` is empty. -/
def parseAssemblyAndChrSimple (organismChr : String) : ParsedAssemblyName :=
  match organismChr.data.findIdx? (· = '.') with
  | none => { assemblyName := organismChr, chr := "" }
  | some dotIndex =>
    { assemblyName := String.mk (organismChr.data.take dotIndex)
      chr := String.mk (organismChr.data.drop (dotIndex + 1)) }

/-! ## Block-to-feature conversion (`BgzipTaffyAdapter.ts`) -/

/-- Modelled from the spec and the repository's unit tests: the source
file `src/BgzipTaffyAdapter/util.ts` (`countNonGapBases`) is not under
`src/`; its unit tests (`util.test.ts`, `BgzipTaffyAdapter.test.ts`)
pin the function to count the characters that are neither the gap `-`
nor a space. -/
def countNonGapBases (s : String) : Nat :=
  s.data.countP fun c => decide (c ≠ '-' ∧ c ≠ ' ')

/-- One per-organism alignment record of a TAF feature. -/
structure OrganismRecord where
  chr : String
  start : Int
  srcSize : Int
  strand : Int
  seq : EncodedSequence
  deriving Repr, DecidableEq

/-- JavaScript `obj[k] = v` on a string-keyed record: overwrite in place
when the key exists, otherwise append the key in insertion order. -/
def recordSet (m : List (String × β)) (k : String) (v : β) :
    List (String × β) :=
  if m.any (·.1 = k) then
    m.map fun p => if p.1 = k then (k, v) else p
  else m ++ [(k, v)]

/-- The plain data of a feature produced by `parseTafBlocks` /
`blockToFeature` (the fields `getFeatures` later copies verbatim into
the emitted `SimpleFeature`).  `end_` models the reserved name `end`. -/
structure TafFeature where
  uniqueId : String
  start : Int
  end_ : Int
  strand : Int
  alignments : List (String × OrganismRecord)
  seq : EncodedSequence
  deriving Repr, DecidableEq

/-- `blockToFeature(block)`: `undefined` on an empty block, otherwise a
feature whose coordinates come from the row at index 0.  The function
receives only the block: no configuration or query value enters it. -/
def blockToFeature (block : AlignmentBlock) : Option TafFeature :=
  if block.rows.length = 0 ∨ block.columnNumber = 0 then none
  else
    match block.rows with
    | [] => none
    | row0 :: _ =>
      let alignments := block.rows.foldl
        (fun m row =>
          let p := parseAssemblyAndChrSimple row.sequenceName
          recordSet m p.assemblyName
            { chr := p.chr, start := row.start
              srcSize := row.sequenceLength, strand := row.strand
              seq := encodeSequence row.bases.data }) []
      let nonGapLength := countNonGapBases row0.bases
      some
        { uniqueId := toString row0.start ++ "-" ++ toString nonGapLength
          start := row0.start
          end_ := row0.start + nonGapLength
          strand := row0.strand
          alignments := alignments
          seq := encodeSequence row0.bases.data }

/-- C10.  Every feature the TAF adapter yields takes its `start`, `end`,
`strand` and sequence from the block's row at index 0 — with
`end = row0.start + countNonGapBases row0.bases` — and a block with
zero rows or zero columns yields no feature.  `blockToFeature` is a
function of the block alone, so no `refAssemblyName` configuration or
query `assemblyName` can influence these fields; the
reference-resolution cascade (`selectReferenceSequence`) does not occur
on this code path. -/
theorem blockToFeature_spec (B : AlignmentBlock) :
    (B.rows = [] ∨ B.columnNumber = 0 → blockToFeature B = none) ∧
    (∀ row0 rest, B.rows = row0 :: rest → B.columnNumber ≠ 0 →
      ∃ f, blockToFeature B = some f ∧
        f.start = row0.start ∧
        f.end_ = row0.start + countNonGapBases row0.bases ∧
        f.strand = row0.strand ∧
        f.seq = encodeSequence row0.bases.data) := by
  constructor
  · intro h
    unfold blockToFeature
    rw [if_pos]
    rcases h with h | h
    · left
      simp [h]
    · right
      exact h
  · intro row0 rest hrows hcol
    unfold blockToFeature
    rw [if_neg (by simp [hrows, hcol]), hrows]
    exact ⟨_, rfl, rfl, rfl, rfl, rfl⟩

/-- Witness for C10 at the concrete S1 block: the feature exists with
`start = 100`, `end = 103`, positive strand and the encoded bases. -/
theorem blockToFeature_spec_witness :
    ∃ f, blockToFeature scenarioS1Block = some f ∧
      f.start = 100 ∧
      f.end_ = 100 + countNonGapBases "AAA" ∧
      f.strand = 1 ∧
      f.seq = encodeSequence "AAA".data := by
  have h := (blockToFeature_spec scenarioS1Block).2
    { sequenceName := "hg38.chr1", start := 100, strand := 1
      sequenceLength := 1000, bases := "AAA", length := 3 }
    [ { sequenceName := "mm10.chr1", start := 200, strand := 1
        sequenceLength := 2000, bases := "CCC", length := 3 } ]
    rfl (by decide)
  simpa using h

/-! ## Query-overlap filtering (`getFeatures` in `BgzipTaffyAdapter.ts`) -/

/-- The emission loop of `getFeatures`: of the parsed features, exactly
those with `feat.end > query.start && feat.start < query.end` are
passed to the observer, in order. -/
def getFeaturesEmit (features : List TafFeature)
    (queryStart queryEnd : Int) : List TafFeature :=
  features.filter fun f =>
    decide (f.end_ > queryStart) && decide (f.start < queryEnd)

/-- C4.  Query-overlap filter invariant: every feature emitted by a TAF
query on `[qs, qe)` overlaps it — `refEnd > qs` and `refStart < qe` —
so features strictly before or strictly after the interval are never
emitted. -/
theorem getFeaturesEmit_overlap (features : List TafFeature)
    (qs qe : Int) (f : TafFeature) (hf : f ∈ getFeaturesEmit features qs qe) :
    f.end_ > qs ∧ f.start < qe := by
  have := List.of_mem_filter hf
  simp only [Bool.and_eq_true, decide_eq_true_eq] at this
  exact this

/-- Witness for C4: a concrete feature list filtered on `[100, 200)`
keeps the overlapping feature, which indeed satisfies both bounds. -/
theorem getFeaturesEmit_overlap_witness :
    (⟨"a", 150, 160, 1, [], ⟨[], 0⟩⟩ : TafFeature).end_ > 100 ∧
    (⟨"a", 150, 160, 1, [], ⟨[], 0⟩⟩ : TafFeature).start < 200 :=
  getFeaturesEmit_overlap
    [⟨"a", 150, 160, 1, [], ⟨[], 0⟩⟩, ⟨"b", 300, 310, 1, [], ⟨[], 0⟩⟩]
    100 200 ⟨"a", 150, 160, 1, [], ⟨[], 0⟩⟩ (by decide)
/-! ## TAI lookup (`lowerBound` and `getLines` in `BgzipTaffyAdapter.ts`) -/

/-- One parsed `.tai` entry. -/
structure ByteRange where
  chrStart : Int
  virtualOffset : VirtualOffset
  deriving Repr, DecidableEq

instance : Inhabited ByteRange := ⟨⟨0, ⟨0, 0⟩⟩⟩

/-- JavaScript `a ?? b` on possibly-undefined values. -/
def jsCoalesce (a b : Option α) : Option α :=
  match a with
  | some x => some x
  | none => b

/-- The `while (lo < hi)` loop of `lowerBound`: `mid = (lo+hi) >>> 1`,
move `lo` past `mid` when the key is below the target, else move `hi`
down to `mid`. -/
def lowerBoundAux [Inhabited α] (arr : List α) (target : Int)
    (getKey : α → Int) (lo hi : Nat) : Nat :=
  if h : lo < hi then
    if getKey (arr.getD ((lo + hi) / 2) default) < target then
      lowerBoundAux arr target getKey ((lo + hi) / 2 + 1) hi
    else lowerBoundAux arr target getKey lo ((lo + hi) / 2)
  else lo
  termination_by hi - lo
  decreasing_by all_goals omega

/-- `lowerBound(arr, target, getKey)`: binary search for the first
index whose key is `≥ target`. -/
def lowerBound [Inhabited α] (arr : List α) (target : Int)
    (getKey : α → Int) : Nat :=
  lowerBoundAux arr target getKey 0 arr.length

theorem lowerBoundAux_spec [Inhabited α] (arr : List α) (target : Int)
    (getKey : α → Int)
    (hs : arr.Pairwise (fun a b => getKey a ≤ getKey b))
    (lo hi : Nat) (hhi : hi ≤ arr.length) (hlohi : lo ≤ hi)
    (hlow : ∀ j, j < lo → j < arr.length → getKey (arr.getD j default) < target)
    (hhigh : ∀ j, hi ≤ j → j < arr.length → target ≤ getKey (arr.getD j default)) :
    lo ≤ lowerBoundAux arr target getKey lo hi ∧
    lowerBoundAux arr target getKey lo hi ≤ hi ∧
    (∀ j, j < lowerBoundAux arr target getKey lo hi → j < arr.length →
      getKey (arr.getD j default) < target) ∧
    (∀ j, lowerBoundAux arr target getKey lo hi ≤ j → j < arr.length →
      target ≤ getKey (arr.getD j default)) := by
  have hpw := List.pairwise_iff_getElem.mp hs
  unfold lowerBoundAux
  split
  case isTrue h =>
    by_cases hm : getKey (arr.getD ((lo + hi) / 2) default) < target
    · rw [if_pos hm]
      have hmidlt : (lo + hi) / 2 < arr.length := by omega
      have hrec := lowerBoundAux_spec arr target getKey hs ((lo + hi) / 2 + 1)
        hi hhi (by omega)
        (by
          intro j hj hjlen
          rcases Nat.lt_or_ge j ((lo + hi) / 2) with hj2 | hj2
          · calc getKey (arr.getD j default)
                = getKey arr[j] := by rw [List.getD_eq_getElem arr default hjlen]
              _ ≤ getKey arr[(lo + hi) / 2] :=
                  hpw j ((lo + hi) / 2) hjlen hmidlt hj2
              _ = getKey (arr.getD ((lo + hi) / 2) default) := by
                  rw [List.getD_eq_getElem arr default hmidlt]
              _ < target := hm
          · have : j = (lo + hi) / 2 := by omega
            subst this
            exact hm)
        hhigh
      exact ⟨by omega, hrec.2.1, hrec.2.2.1, hrec.2.2.2⟩
    · rw [if_neg hm]
      have hmidlt : (lo + hi) / 2 < arr.length := by omega
      have hrec := lowerBoundAux_spec arr target getKey hs lo ((lo + hi) / 2)
        (by omega) (by omega) hlow
        (by
          intro j hj hjlen
          rcases Nat.lt_or_ge ((lo + hi) / 2) j with hj2 | hj2
          · have h1 : target ≤ getKey arr[(lo + hi) / 2] := by
              rw [← List.getD_eq_getElem arr default hmidlt]
              omega
            calc target ≤ getKey arr[(lo + hi) / 2] := h1
              _ ≤ getKey arr[j] := hpw ((lo + hi) / 2) j hmidlt hjlen hj2
              _ = getKey (arr.getD j default) := by
                  rw [List.getD_eq_getElem arr default hjlen]
          · have : j = (lo + hi) / 2 := by omega
            subst this
            omega)
      exact ⟨hrec.1, by omega, hrec.2.2.1, hrec.2.2.2⟩
  case isFalse h =>
    refine ⟨le_refl lo, by omega, ?_, ?_⟩
    · intro j hj hjlen
      exact hlow j hj hjlen
    · intro j hj hjlen
      exact hhigh j (by omega) hjlen
  termination_by hi - lo
  decreasing_by all_goals omega

theorem lowerBound_spec [Inhabited α] (arr : List α) (target : Int)
    (getKey : α → Int)
    (hs : arr.Pairwise (fun a b => getKey a ≤ getKey b)) :
    lowerBound arr target getKey ≤ arr.length ∧
    (∀ j, j < lowerBound arr target getKey → j < arr.length →
      getKey (arr.getD j default) < target) ∧
    (∀ j, lowerBound arr target getKey ≤ j → j < arr.length →
      target ≤ getKey (arr.getD j default)) := by
  have h := lowerBoundAux_spec arr target getKey hs 0 arr.length le_rfl
    (Nat.zero_le _) (by omega) (by omega)
  exact ⟨h.2.1, h.2.2.1, h.2.2.2⟩

/-- The entry-selection logic of `getLines`: `firstEntry =
records[Math.max(startIdx - 1, 0)]`, `nextEntry = records[endIdx + 1]
?? records.at(-1)`, proceeding only when both are defined. -/
def getLinesSelect (records : List ByteRange) (queryStart queryEnd : Int) :
    Option (ByteRange × ByteRange) :=
  if records.length > 0 then
    match records.get?
        (max (lowerBound records queryStart ByteRange.chrStart - 1) 0),
      jsCoalesce
        (records.get? (lowerBound records queryEnd ByteRange.chrStart + 1))
        records.getLast? with
    | some firstEntry, some nextEntry => some (firstEntry, nextEntry)
    | _, _ => none
  else none

/-- C6.  TAI lookup entry selection: for a non-empty entry list sorted
ascending by `chrStart`, the lookup never fails; it selects
`firstEntry = entries[max(lowerBound(qStart) - 1, 0)]` and
`nextEntry = entries[lowerBound(qEnd) + 1]` when that index exists,
otherwise the last entry; and `lowerBound` really is the lower bound:
an index precedes it exactly when its `chrStart` is below the target. -/
theorem getLines_entry_selection (records : List ByteRange) (qs qe : Int)
    (hne : records ≠ [])
    (hs : records.Pairwise fun a b => a.chrStart ≤ b.chrStart) :
    ∃ f n, getLinesSelect records qs qe = some (f, n) ∧
      records.get? (max (lowerBound records qs ByteRange.chrStart - 1) 0)
        = some f ∧
      (lowerBound records qe ByteRange.chrStart + 1 < records.length →
        records.get? (lowerBound records qe ByteRange.chrStart + 1)
          = some n) ∧
      (¬ lowerBound records qe ByteRange.chrStart + 1 < records.length →
        records.getLast? = some n) ∧
      (∀ j (hj : j < records.length),
        (j < lowerBound records qs ByteRange.chrStart ↔
          records[j].chrStart < qs)) ∧
      (∀ j (hj : j < records.length),
        (j < lowerBound records qe ByteRange.chrStart ↔
          records[j].chrStart < qe)) := by
  have hlen : 0 < records.length := List.length_pos.mpr hne
  have hqs := lowerBound_spec records qs ByteRange.chrStart hs
  have hfidx : max (lowerBound records qs ByteRange.chrStart - 1) 0
      < records.length := by omega
  have hfirst := List.get?_eq_get hfidx
  have hiff : ∀ (target : Int) (j : Nat) (hj : j < records.length),
      (j < lowerBound records target ByteRange.chrStart ↔
        records[j].chrStart < target) := by
    intro target j hj
    have h := lowerBound_spec records target ByteRange.chrStart hs
    constructor
    · intro hlt
      have := h.2.1 j hlt hj
      rwa [List.getD_eq_getElem records default hj] at this
    · intro hlt
      by_contra hge
      have := h.2.2 j (by omega) hj
      rw [List.getD_eq_getElem records default hj] at this
      omega
  by_cases hnext : lowerBound records qe ByteRange.chrStart + 1
      < records.length
  · have hn := List.get?_eq_get hnext
    refine ⟨_, _, ?_, hfirst, fun _ => hn, fun hc => absurd hnext hc, hiff qs,
      hiff qe⟩
    unfold getLinesSelect
    rw [if_pos hlen, hfirst, hn]
    rfl
  · have hnone : records.get?
        (lowerBound records qe ByteRange.chrStart + 1) = none :=
      List.get?_eq_none.mpr (by omega)
    obtain ⟨last, hlast⟩ : ∃ last, records.getLast? = some last := by
      cases hl : records.getLast? with
      | none => exact absurd (List.getLast?_eq_none_iff.mp hl) hne
      | some x => exact ⟨x, rfl⟩
    refine ⟨_, _, ?_, hfirst, fun hc => absurd hc hnext, fun _ => hlast,
      hiff qs, hiff qe⟩
    unfold getLinesSelect
    rw [if_pos hlen, hfirst, hnone, hlast]
    rfl

/-- The concrete sorted two-entry index used by the C6 witness. -/
def c6Records : List ByteRange := [⟨10, ⟨0, 5⟩⟩, ⟨50, ⟨2, 7⟩⟩]

/-- Witness for C6: the concrete sorted two-entry index queried on
`[30, 100)`. -/
theorem getLines_entry_selection_witness :
    ∃ f n, getLinesSelect c6Records 30 100 = some (f, n) ∧
      c6Records.get? (max (lowerBound c6Records 30 ByteRange.chrStart - 1) 0)
        = some f ∧
      (lowerBound c6Records 100 ByteRange.chrStart + 1 < c6Records.length →
        c6Records.get? (lowerBound c6Records 100 ByteRange.chrStart + 1)
          = some n) ∧
      (¬ lowerBound c6Records 100 ByteRange.chrStart + 1 < c6Records.length →
        c6Records.getLast? = some n) ∧
      (∀ j (hj : j < c6Records.length),
        (j < lowerBound c6Records 30 ByteRange.chrStart ↔
          c6Records[j].chrStart < 30)) ∧
      (∀ j (hj : j < c6Records.length),
        (j < lowerBound c6Records 100 ByteRange.chrStart ↔
          c6Records[j].chrStart < 100)) :=
  getLines_entry_selection c6Records 30 100 (by decide) (by decide)

/-! ## TAI parsing (`readTaiFile` in `BgzipTaffyAdapter.ts`)

`readTaiFile` folds over the trimmed, non-empty lines of the `.tai`
file.  A line is modelled after the tab-split and the JavaScript `+`
coercions: its `chr` string and its two numbers. -/

/-- Generalized JavaScript `s.split(sep)` for a one-character
separator, with the accumulated current segment. -/
def jsSplitCharAux (sep : Char) : List Char → List Char → List String
  | [], acc => [String.mk acc.reverse]
  | c :: rest, acc =>
    if c = sep then String.mk acc.reverse :: jsSplitCharAux sep rest []
    else jsSplitCharAux sep rest (c :: acc)

/-- `chr.split('.').at(-1)`: the substring after the last dot (the
whole string when there is no dot). -/
def lastComponent (s : String) : String :=
  (jsSplitCharAux '.' s.data []).getLastD ""

theorem jsSplitCharAux_ne_nil (sep : Char) :
    ∀ (l acc : List Char), jsSplitCharAux sep l acc ≠ []
  | [], _ => by simp [jsSplitCharAux]
  | c :: rest, acc => by
    unfold jsSplitCharAux
    split
    · simp
    · exact jsSplitCharAux_ne_nil sep rest (c :: acc)

theorem jsSplitCharAux_last_no_sep (sep : Char) :
    ∀ (l acc : List Char) (d : String), sep ∉ acc → sep ∉ d.data →
      sep ∉ ((jsSplitCharAux sep l acc).getLastD d).data
  | [], acc, d => by
    intro hacc _
    simpa [jsSplitCharAux] using fun h => hacc (List.mem_reverse.mp h)
  | c :: rest, acc, d => by
    intro hacc hd
    unfold jsSplitCharAux
    by_cases hc : c = sep
    · rw [if_pos hc, List.getLastD_cons]
      exact jsSplitCharAux_last_no_sep sep rest [] _ (by simp)
        (by simpa using fun h => hacc (List.mem_reverse.mp h))
    · rw [if_neg hc]
      exact jsSplitCharAux_last_no_sep sep rest (c :: acc) d
        (by
          simp only [List.mem_cons, not_or]
          exact ⟨fun h => hc h.symm, hacc⟩) hd

theorem jsSplitCharAux_no_sep (sep : Char) :
    ∀ (l acc : List Char), sep ∉ l →
      jsSplitCharAux sep l acc = [String.mk (acc.reverse ++ l)]
  | [], acc => by simp [jsSplitCharAux]
  | c :: rest, acc => by
    intro hl
    simp only [List.mem_cons, not_or] at hl
    unfold jsSplitCharAux
    rw [if_neg fun hc => hl.1 hc.symm,
      jsSplitCharAux_no_sep sep rest (c :: acc) hl.2]
    simp

theorem jsSplitCharAux_append_sep (sep : Char) :
    ∀ (l1 l2 acc : List Char),
      jsSplitCharAux sep (l1 ++ sep :: l2) acc =
        jsSplitCharAux sep l1 acc ++ jsSplitCharAux sep l2 []
  | [], l2, acc => by simp [jsSplitCharAux]
  | c :: rest, l2, acc => by
    show jsSplitCharAux sep (c :: (rest ++ sep :: l2)) acc =
      jsSplitCharAux sep (c :: rest) acc ++ jsSplitCharAux sep l2 []
    simp only [jsSplitCharAux]
    by_cases hc : c = sep
    · simp only [if_pos hc]
      rw [jsSplitCharAux_append_sep sep rest l2 []]
      rfl
    · simp only [if_neg hc]
      exact jsSplitCharAux_append_sep sep rest l2 (c :: acc)

theorem lastComponent_no_dot (s : String) :
    '.' ∉ (lastComponent s).data :=
  jsSplitCharAux_last_no_sep '.' s.data [] "" (by simp) (by simp)

theorem lastComponent_eq_self (s : String) (h : '.' ∉ s.data) :
    lastComponent s = s := by
  unfold lastComponent
  rw [jsSplitCharAux_no_sep '.' s.data [] h]
  rfl

theorem lastComponent_append (s t : String) (h : '.' ∉ t.data) :
    lastComponent (s ++ "." ++ t) = t := by
  unfold lastComponent
  have hdata : (s ++ "." ++ t).data = s.data ++ '.' :: t.data := by
    show (s.data ++ ['.']) ++ t.data = _
    simp
  rw [hdata, jsSplitCharAux_append_sep, jsSplitCharAux_no_sep '.' t.data [] h]
  simpa using List.getLastD_concat _ _ _

/-- One `.tai` line after the tab-split and number coercion: the raw
`chr` column and the two numeric columns. -/
structure TaiLine where
  chr : String
  chrStart : Int
  virtualOffset : Int
  deriving Repr, DecidableEq

/-- The running state of the `readTaiFile` loop. -/
structure TaiState where
  lastChr : String
  lastChrStart : Int
  lastRawVirtualOffset : Int
  entries : List (String × List ByteRange)
  deriving Repr, DecidableEq

/-- `entries[currChr] = entries[currChr] ?? []; entries[currChr].push(e)`. -/
def indexPush (m : List (String × List ByteRange)) (k : String)
    (v : ByteRange) : List (String × List ByteRange) :=
  if m.any (·.1 = k) then
    m.map fun p => if p.1 = k then (p.1, p.2 ++ [v]) else p
  else m ++ [(k, [v])]

/-- The body of the `readTaiFile` loop: resolve `*` deltas against the
previous absolute values, canonicalize the refName to the substring
after the last dot, and split the absolute virtual offset into
`Math.floor(v / 65536)` and `v % 65536` (JavaScript floor division and
truncating remainder). -/
def taiStep (st : TaiState) (line : TaiLine) : TaiState :=
  let isRelative := line.chr = "*"
  let currChr := if isRelative then st.lastChr else lastComponent line.chr
  let absVirtualOffset :=
    if isRelative then st.lastRawVirtualOffset + line.virtualOffset
    else line.virtualOffset
  let absChrStart :=
    if isRelative then st.lastChrStart + line.chrStart else line.chrStart
  { lastChr := currChr
    lastChrStart := absChrStart
    lastRawVirtualOffset := absVirtualOffset
    entries :=
      indexPush st.entries currChr
        ⟨absChrStart,
          ⟨absVirtualOffset.fdiv 65536, absVirtualOffset.tmod 65536⟩⟩ }

/-- `readTaiFile(lines)`: fold the lines into the per-refName index. -/
def readTaiFile (lines : List TaiLine) : List (String × List ByteRange) :=
  (lines.foldl taiStep ⟨"", 0, 0, []⟩).entries

/-- The all-absolute rewriting of a `.tai` file: each `*` line is
replaced by the previous line's absolute refName together with the
previous absolute `chrStart` plus the delta and the previous absolute
virtual offset plus the delta. -/
def rewriteAux : List TaiLine → String → Int → Int → List TaiLine
  | [], _, _, _ => []
  | l :: rest, lastChr, lastStart, lastVoff =>
    if l.chr = "*" then
      ⟨lastChr, lastStart + l.chrStart, lastVoff + l.virtualOffset⟩ ::
        rewriteAux rest lastChr (lastStart + l.chrStart)
          (lastVoff + l.virtualOffset)
    else
      l :: rewriteAux rest (lastComponent l.chr) l.chrStart l.virtualOffset

/-- A `.tai` file with every `*` line rewritten to absolute values. -/
def rewriteToAbsolute (lines : List TaiLine) : List TaiLine :=
  rewriteAux lines "" 0 0

theorem taiFold_rewrite_eq :
    ∀ (lines : List TaiLine) (st : TaiState),
      st.lastChr ≠ "*" → '.' ∉ st.lastChr.data →
      (∀ l ∈ lines, l.chr ≠ "*" → lastComponent l.chr ≠ "*") →
      (rewriteAux lines st.lastChr st.lastChrStart
          st.lastRawVirtualOffset).foldl taiStep st
        = lines.foldl taiStep st
  | [], _, _, _, _ => rfl
  | l :: rest, st, hstar, hdot, habs => by
    by_cases hl : l.chr = "*"
    · unfold rewriteAux
      rw [if_pos hl]
      simp only [List.foldl_cons]
      have hstep :
          taiStep st ⟨st.lastChr, st.lastChrStart + l.chrStart,
            st.lastRawVirtualOffset + l.virtualOffset⟩ = taiStep st l := by
        simp [taiStep, hl, hstar, lastComponent_eq_self st.lastChr hdot]
      rw [hstep]
      have hst' : taiStep st l =
          { lastChr := st.lastChr
            lastChrStart := st.lastChrStart + l.chrStart
            lastRawVirtualOffset := st.lastRawVirtualOffset + l.virtualOffset
            entries := (taiStep st l).entries } := by
        simp [taiStep, hl]
      rw [hst']
      exact taiFold_rewrite_eq rest _ hstar hdot
        (fun x hx => habs x (by simp [hx]))
    · unfold rewriteAux
      rw [if_neg hl]
      simp only [List.foldl_cons]
      have hst' : taiStep st l =
          { lastChr := lastComponent l.chr
            lastChrStart := l.chrStart
            lastRawVirtualOffset := l.virtualOffset
            entries := (taiStep st l).entries } := by
        simp [taiStep, hl]
      rw [hst']
      exact taiFold_rewrite_eq rest _ (habs l (by simp) hl)
        (lastComponent_no_dot l.chr) (fun x hx => habs x (by simp [hx]))

/-- C7.  TAI running-delta equivalence: a `.tai` file with `chr='*'`
relative lines parses to exactly the same index map as the same file
with every `*` line rewritten to absolute values (previous absolute
`chrStart`/virtual offset plus the delta) — provided, as in every real
`.tai`, no absolute line's canonical refName is the literal `*`.
Moreover, a single absolute line is filed under the substring after the
last dot of its `chr`, and its `blockPosition`/`dataPosition` are the
floor-quotient and remainder of the virtual offset by 65536; the
substring after the last dot of `s ++ "." ++ t` (dot-free `t`) is `t`. -/
theorem readTaiFile_relative_delta (lines : List TaiLine)
    (habs : ∀ l ∈ lines, l.chr ≠ "*" → lastComponent l.chr ≠ "*") :
    readTaiFile (rewriteToAbsolute lines) = readTaiFile lines ∧
    (∀ (c : String) (s v : Int), c ≠ "*" → 0 ≤ v →
      ∃ e, readTaiFile [⟨c, s, v⟩] = [(lastComponent c, [e])] ∧
        e.chrStart = s ∧
        e.virtualOffset.blockPosition * 65536 + e.virtualOffset.dataPosition
          = v ∧
        0 ≤ e.virtualOffset.dataPosition ∧
        e.virtualOffset.dataPosition < 65536) ∧
    (∀ s t : String, '.' ∉ t.data → lastComponent (s ++ "." ++ t) = t) := by
  refine ⟨?_, ?_, lastComponent_append⟩
  · unfold readTaiFile rewriteToAbsolute
    rw [show ("" : String) = (⟨"", 0, 0, []⟩ : TaiState).lastChr from rfl,
      show (0 : Int) = (⟨"", 0, 0, []⟩ : TaiState).lastChrStart from rfl,
      show (0 : Int) = (⟨"", 0, 0, []⟩ : TaiState).lastRawVirtualOffset from rfl,
      taiFold_rewrite_eq lines ⟨"", 0, 0, []⟩ (by decide) (by decide) habs]
  · intro c s v hc hv
    refine ⟨⟨s, ⟨v.fdiv 65536, v.tmod 65536⟩⟩, ?_, rfl, ?_, ?_, ?_⟩
    · unfold readTaiFile
      simp [taiStep, hc, indexPush]
    · show v.fdiv 65536 * 65536 + v.tmod 65536 = v
      rw [Int.fdiv_eq_ediv, Int.tmod_eq_emod] <;> omega
    · show 0 ≤ v.tmod 65536
      rw [Int.tmod_eq_emod] <;> omega
    · show v.tmod 65536 < 65536
      rw [Int.tmod_eq_emod] <;> omega

/-- The concrete delta-compressed `.tai` used by the C7 witness. -/
def c7Lines : List TaiLine :=
  [⟨"ce10.chrI", 3725, 131072⟩, ⟨"*", 5000, 70000⟩, ⟨"*", 5000, 70000⟩]

/-- Witness for C7: a concrete three-line index whose last two lines are
`*` deltas parses identically to its absolute rewriting, and a concrete
absolute line lands under the canonical refName with a floor/remainder
virtual-offset split. -/
theorem readTaiFile_relative_delta_witness :
    readTaiFile (rewriteToAbsolute c7Lines) = readTaiFile c7Lines ∧
    (∃ e, readTaiFile [⟨"ce10.chrI", 3725, 131073⟩]
        = [(lastComponent "ce10.chrI", [e])] ∧
      e.chrStart = 3725 ∧
      e.virtualOffset.blockPosition * 65536 + e.virtualOffset.dataPosition
        = 131073 ∧
      0 ≤ e.virtualOffset.dataPosition ∧
      e.virtualOffset.dataPosition < 65536) ∧
    lastComponent ("caeSp111" ++ "." ++ "Scaffold80") = "Scaffold80" := by
  have h := readTaiFile_relative_delta c7Lines (by decide)
  exact ⟨h.1, h.2.1 "ce10.chrI" 3725 131073 (by decide) (by decide),
    h.2.2 "caeSp111" "Scaffold80" (by decide)⟩

/-! ## MafTabix assembly/chr heuristic (`parseAssemblyAndChr`)

The source tests the middle segment with
`secondPart.length > 0 && !Number.isNaN(+secondPart)`.  The model of
`!Number.isNaN(+s)` below follows the ECMAScript `StringNumericLiteral`
grammar: optional whitespace trimming, the empty string converting to
0, signed decimal literals with optional fraction and exponent,
`Infinity`, and unsigned hex/octal/binary literals. -/

/-- The ECMAScript string whitespace characters recognized here (the
common ASCII whitespace, no-break space, BOM and the two Unicode line
separators). -/
def jsWhitespaceChars : List Char :=
  [' ', '\t', '\n', '\r', '\x0b', '\x0c', '\u00A0', '\uFEFF',
    '\u2028', '\u2029']

/-- Whether a character is JavaScript string whitespace. -/
def isJsWhitespace (c : Char) : Bool := jsWhitespaceChars.contains c

/-- Hexadecimal digit. -/
def isHexDigitChar (c : Char) : Bool :=
  c.isDigit || ('a' ≤ c && c ≤ 'f') || ('A' ≤ c && c ≤ 'F')

/-- Octal digit. -/
def isOctDigitChar (c : Char) : Bool := '0' ≤ c && c ≤ '7'

/-- Binary digit. -/
def isBinDigitChar (c : Char) : Bool := c = '0' || c = '1'

/-- `SignedInteger`: optional sign followed by at least one digit. -/
def isSignedDigits (l : List Char) : Bool :=
  if l.head? = some '+' ∨ l.head? = some '-' then
    !(l.drop 1).isEmpty && (l.drop 1).all Char.isDigit
  else !l.isEmpty && l.all Char.isDigit

/-- Optional `ExponentPart` filling the rest of the token. -/
def isExpOpt (l : List Char) : Bool :=
  match l.head? with
  | none => true
  | some c => (c = 'e' || c = 'E') && isSignedDigits (l.drop 1)

/-- `StrUnsignedDecimalLiteral`: `Infinity`, `. digits exp?`,
`digits . digits? exp?` or `digits exp?`. -/
def isUnsignedDec (l : List Char) : Bool :=
  if l = ['I', 'n', 'f', 'i', 'n', 'i', 't', 'y'] then true
  else if l.head? = some '.' then
    !((l.drop 1).takeWhile Char.isDigit).isEmpty &&
      isExpOpt ((l.drop 1).dropWhile Char.isDigit)
  else
    !(l.takeWhile Char.isDigit).isEmpty &&
      (if (l.dropWhile Char.isDigit).head? = some '.' then
        isExpOpt (((l.dropWhile Char.isDigit).drop 1).dropWhile Char.isDigit)
      else isExpOpt (l.dropWhile Char.isDigit))

/-- `StrNumericLiteral`: a signed decimal literal or an unsigned
radix-prefixed integer literal. -/
def isStrNumericLiteral (l : List Char) : Bool :=
  if l.head? = some '+' ∨ l.head? = some '-' then isUnsignedDec (l.drop 1)
  else if l.take 2 = ['0', 'x'] ∨ l.take 2 = ['0', 'X'] then
    !(l.drop 2).isEmpty && (l.drop 2).all isHexDigitChar
  else if l.take 2 = ['0', 'o'] ∨ l.take 2 = ['0', 'O'] then
    !(l.drop 2).isEmpty && (l.drop 2).all isOctDigitChar
  else if l.take 2 = ['0', 'b'] ∨ l.take 2 = ['0', 'B'] then
    !(l.drop 2).isEmpty && (l.drop 2).all isBinDigitChar
  else isUnsignedDec l

/-- `!Number.isNaN(+s)`: trim string whitespace; the empty remainder
converts to 0 (not NaN), otherwise the remainder must be a
`StrNumericLiteral`. -/
def jsNumberNotNaN (s : String) : Bool :=
  ((s.data.dropWhile isJsWhitespace).reverse.dropWhile
    isJsWhitespace).reverse.isEmpty ||
  isStrNumericLiteral ((s.data.dropWhile isJsWhitespace).reverse.dropWhile
    isJsWhitespace).reverse

/-- `parseAssemblyAndChr(assemblyAndChr)`: `indexOf`/`slice` on the
first two dots, splitting at the second dot exactly when the segment
between the first two dots is non-empty and numeric under JavaScript
`Number` coercion. -/
def parseAssemblyAndChr (assemblyAndChr : String) : ParsedAssemblyName :=
  match assemblyAndChr.data.findIdx? (· = '.') with
  | none => { assemblyName := assemblyAndChr, chr := "" }
  | some firstDotIndex =>
    match (assemblyAndChr.data.drop (firstDotIndex + 1)).findIdx? (· = '.') with
    | none =>
      { assemblyName := String.mk (assemblyAndChr.data.take firstDotIndex)
        chr := String.mk (assemblyAndChr.data.drop (firstDotIndex + 1)) }
    | some k =>
      if ((assemblyAndChr.data.drop (firstDotIndex + 1)).take k).length > 0 ∧
          jsNumberNotNaN (String.mk
            ((assemblyAndChr.data.drop (firstDotIndex + 1)).take k)) then
        { assemblyName :=
            String.mk (assemblyAndChr.data.take (firstDotIndex + 1 + k))
          chr :=
            String.mk (assemblyAndChr.data.drop (firstDotIndex + 1 + k + 1)) }
      else
        { assemblyName := String.mk (assemblyAndChr.data.take firstDotIndex)
          chr := String.mk (assemblyAndChr.data.drop (firstDotIndex + 1)) }

theorem findIdx?_append_sep (p : Char → Bool) :
    ∀ (a : List Char) (c : Char) (r : List Char) (i : Nat),
      (∀ x ∈ a, p x = false) → p c = true →
      List.findIdx? p (a ++ c :: r) i = some (i + a.length)
  | [], c, r, i, _, hc => by simp [List.findIdx?_cons, hc]
  | x :: rest, c, r, i, ha, hc => by
    rw [List.cons_append, List.findIdx?_cons, if_neg (by simp [ha x (by simp)]),
      findIdx?_append_sep p rest c r (i + 1) (fun y hy => ha y (by simp [hy])) hc]
    congr 1
    simp
    omega

theorem no_dot_findIdx (s : String) (h : '.' ∉ s.data) :
    List.findIdx? (fun x => decide (x = '.')) s.data = none :=
  List.findIdx?_eq_none_iff.mpr (by
    intro x hx
    simp only [decide_eq_false_iff_not]
    exact fun he => h (he ▸ hx))

theorem parseAssemblyAndChr_no_dot (s : String) (h : '.' ∉ s.data) :
    parseAssemblyAndChr s = ⟨s, ""⟩ := by
  unfold parseAssemblyAndChr
  rw [no_dot_findIdx s h]

theorem parseAssemblyAndChr_one_dot (a b : String) (ha : '.' ∉ a.data)
    (hb : '.' ∉ b.data) :
    parseAssemblyAndChr (a ++ "." ++ b) = ⟨a, b⟩ := by
  unfold parseAssemblyAndChr
  have hdata : (a ++ "." ++ b).data = a.data ++ '.' :: b.data := by
    show (a.data ++ ['.']) ++ b.data = _
    simp
  rw [hdata, findIdx?_append_sep (· = '.') a.data '.' b.data 0
      (by
        intro x hx
        simp only [decide_eq_false_iff_not]
        exact fun he => ha (he ▸ hx)) (by simp)]
  simp only [Nat.zero_add]
  have hdrop : (a.data ++ '.' :: b.data).drop (a.data.length + 1) = b.data := by
    rw [show a.data ++ '.' :: b.data = (a.data ++ ['.']) ++ b.data by simp,
      show a.data.length + 1 = (a.data ++ ['.']).length by
        simp only [List.length_append, List.length_cons, List.length_nil]]
    exact List.drop_left _ _
  rw [hdrop, no_dot_findIdx b hb]
  have htake : (a.data ++ '.' :: b.data).take a.data.length = a.data :=
    List.take_left _ _
  rw [htake]

theorem parseAssemblyAndChr_two_dots_pos (a b c : String) (ha : '.' ∉ a.data)
    (hb : '.' ∉ b.data) (hcond : b.length > 0 ∧ jsNumberNotNaN b) :
    parseAssemblyAndChr (a ++ "." ++ b ++ "." ++ c) = ⟨a ++ "." ++ b, c⟩ := by
  unfold parseAssemblyAndChr
  have hdata : (a ++ "." ++ b ++ "." ++ c).data
      = a.data ++ '.' :: (b.data ++ '.' :: c.data) := by
    show (((a.data ++ ['.']) ++ b.data) ++ ['.']) ++ c.data = _
    simp
  rw [hdata, findIdx?_append_sep (· = '.') a.data '.' _ 0
      (by
        intro x hx
        simp only [decide_eq_false_iff_not]
        exact fun he => ha (he ▸ hx)) (by simp)]
  simp only [Nat.zero_add]
  have hdrop1 : (a.data ++ '.' :: (b.data ++ '.' :: c.data)).drop
      (a.data.length + 1) = b.data ++ '.' :: c.data := by
    rw [show a.data ++ '.' :: (b.data ++ '.' :: c.data)
        = (a.data ++ ['.']) ++ (b.data ++ '.' :: c.data) by simp,
      show a.data.length + 1 = (a.data ++ ['.']).length by
        simp only [List.length_append, List.length_cons, List.length_nil]]
    exact List.drop_left _ _
  rw [hdrop1, findIdx?_append_sep (· = '.') b.data '.' c.data 0
      (by
        intro x hx
        simp only [decide_eq_false_iff_not]
        exact fun he => hb (he ▸ hx)) (by simp)]
  simp only [Nat.zero_add]
  have htakeb : (b.data ++ '.' :: c.data).take b.data.length = b.data :=
    List.take_left _ _
  rw [htakeb]
  have htake2 : (a.data ++ '.' :: (b.data ++ '.' :: c.data)).take
      (a.data.length + 1 + b.data.length) = (a.data ++ ['.']) ++ b.data := by
    rw [show a.data ++ '.' :: (b.data ++ '.' :: c.data)
        = ((a.data ++ ['.']) ++ b.data) ++ ('.' :: c.data) by simp,
      show a.data.length + 1 + b.data.length
        = ((a.data ++ ['.']) ++ b.data).length by
        simp only [List.length_append, List.length_cons, List.length_nil]]
    exact List.take_left _ _
  have hdrop2 : (a.data ++ '.' :: (b.data ++ '.' :: c.data)).drop
      (a.data.length + 1 + b.data.length + 1) = c.data := by
    rw [show a.data ++ '.' :: (b.data ++ '.' :: c.data)
        = (((a.data ++ ['.']) ++ b.data) ++ ['.']) ++ c.data by simp,
      show a.data.length + 1 + b.data.length + 1
        = (((a.data ++ ['.']) ++ b.data) ++ ['.']).length by
        simp only [List.length_append, List.length_cons, List.length_nil]]
    exact List.drop_left _ _
  rw [if_pos (show b.data.length > 0 ∧
      jsNumberNotNaN (String.mk b.data) = true from hcond), htake2, hdrop2]
  rfl

theorem parseAssemblyAndChr_two_dots_neg (a b c : String) (ha : '.' ∉ a.data)
    (hb : '.' ∉ b.data) (hcond : ¬(b.length > 0 ∧ jsNumberNotNaN b)) :
    parseAssemblyAndChr (a ++ "." ++ b ++ "." ++ c) = ⟨a, b ++ "." ++ c⟩ := by
  unfold parseAssemblyAndChr
  have hdata : (a ++ "." ++ b ++ "." ++ c).data
      = a.data ++ '.' :: (b.data ++ '.' :: c.data) := by
    show (((a.data ++ ['.']) ++ b.data) ++ ['.']) ++ c.data = _
    simp
  rw [hdata, findIdx?_append_sep (· = '.') a.data '.' _ 0
      (by
        intro x hx
        simp only [decide_eq_false_iff_not]
        exact fun he => ha (he ▸ hx)) (by simp)]
  simp only [Nat.zero_add]
  have hdrop1 : (a.data ++ '.' :: (b.data ++ '.' :: c.data)).drop
      (a.data.length + 1) = b.data ++ '.' :: c.data := by
    rw [show a.data ++ '.' :: (b.data ++ '.' :: c.data)
        = (a.data ++ ['.']) ++ (b.data ++ '.' :: c.data) by simp,
      show a.data.length + 1 = (a.data ++ ['.']).length by
        simp only [List.length_append, List.length_cons, List.length_nil]]
    exact List.drop_left _ _
  rw [hdrop1, findIdx?_append_sep (· = '.') b.data '.' c.data 0
      (by
        intro x hx
        simp only [decide_eq_false_iff_not]
        exact fun he => hb (he ▸ hx)) (by simp)]
  simp only [Nat.zero_add]
  have htakeb : (b.data ++ '.' :: c.data).take b.data.length = b.data :=
    List.take_left _ _
  rw [htakeb]
  have htake1 : (a.data ++ '.' :: (b.data ++ '.' :: c.data)).take
      a.data.length = a.data := List.take_left _ _
  rw [if_neg (show ¬(b.data.length > 0 ∧
      jsNumberNotNaN (String.mk b.data) = true) from hcond), htake1]
  show ParsedAssemblyName.mk _ (String.mk (b.data ++ '.' :: c.data)) = _
  have hbc : String.mk (b.data ++ '.' :: c.data) = b ++ "." ++ c := by
    show String.mk _ = String.mk ((b.data ++ ['.']) ++ c.data)
    apply congrArg
    simp
  rw [hbc]

theorem ws_not_digit (c : Char) (h : isJsWhitespace c = true) :
    c.isDigit = false := by
  have hc : c ∈ jsWhitespaceChars := by
    simpa [isJsWhitespace] using h
  fin_cases hc <;> decide

theorem digit_not_ws (c : Char) (h : c.isDigit = true) :
    isJsWhitespace c = false := by
  cases hws : isJsWhitespace c with
  | false => rfl
  | true => rw [ws_not_digit c hws] at h; cases h

theorem digit_ne (c d : Char) (h : c.isDigit = true)
    (hd : d.isDigit = false) : c ≠ d := by
  intro he
  rw [he, hd] at h
  cases h

theorem dropWhile_ws_of_digits (l : List Char)
    (hall : ∀ x ∈ l, x.isDigit = true) :
    l.dropWhile isJsWhitespace = l := by
  cases l with
  | nil => rfl
  | cons x xs =>
    rw [List.dropWhile_cons, if_neg]
    rw [digit_not_ws x (hall x (by simp))]
    simp

/-- Every non-empty all-decimal-digit token is numeric under JavaScript
`Number` coercion. -/
theorem digits_jsNumberNotNaN (t : String) (hne : t.data ≠ [])
    (hd : t.data.all Char.isDigit = true) : jsNumberNotNaN t = true := by
  have hall : ∀ x ∈ t.data, x.isDigit = true := by
    simpa [List.all_eq_true] using hd
  have htrim1 : t.data.dropWhile isJsWhitespace = t.data :=
    dropWhile_ws_of_digits t.data hall
  have htrim2 : t.data.reverse.dropWhile isJsWhitespace = t.data.reverse :=
    dropWhile_ws_of_digits t.data.reverse
      (fun x hx => hall x (List.mem_reverse.mp hx))
  unfold jsNumberNotNaN
  rw [htrim1, htrim2, List.reverse_reverse]
  cases hl : t.data with
  | nil => exact absurd hl hne
  | cons x xs =>
    have hx : x.isDigit = true := hall x (by rw [hl]; simp)
    have hxs : ∀ y ∈ xs, y.isDigit = true := fun y hy =>
      hall y (by rw [hl]; simp [hy])
    have hsign : ¬((x :: xs).head? = some '+' ∨ (x :: xs).head? = some '-') := by
      simp only [List.head?_cons, Option.some.injEq, not_or]
      exact ⟨digit_ne x '+' hx (by decide), digit_ne x '-' hx (by decide)⟩
    have htake2 : ∀ d e : Char, e.isDigit = false → (x :: xs).take 2 ≠ [d, e] := by
      intro d e he
      cases xs with
      | nil => simp
      | cons y ys =>
        intro hcontra
        have hy : y.isDigit = true := hxs y (by simp)
        have hye : y = e := by
          have := congrArg (fun l => l.getD 1 ' ') hcontra
          simpa using this
        rw [hye, he] at hy
        cases hy
    rw [Bool.or_eq_true]
    right
    unfold isStrNumericLiteral
    rw [if_neg hsign,
      if_neg (by
        push_neg
        exact ⟨htake2 '0' 'x' (by decide), htake2 '0' 'X' (by decide)⟩),
      if_neg (by
        push_neg
        exact ⟨htake2 '0' 'o' (by decide), htake2 '0' 'O' (by decide)⟩),
      if_neg (by
        push_neg
        exact ⟨htake2 '0' 'b' (by decide), htake2 '0' 'B' (by decide)⟩)]
    unfold isUnsignedDec
    rw [if_neg (by
        intro hcontra
        have : x = 'I' := by
          have := congrArg (fun l => l.headD ' ') hcontra
          simpa using this
        rw [this] at hx
        cases hx),
      if_neg (by
        simp only [List.head?_cons, Option.some.injEq]
        exact digit_ne x '.' hx (by decide))]
    rw [List.takeWhile_eq_self_iff.mpr (by
        intro y hy
        exact hall y (hl ▸ hy)),
      List.dropWhile_eq_nil_iff.mpr (by
        intro y hy
        exact hall y (hl ▸ hy))]
    simp [isExpOpt]

/-- Counterexample for C9 as stated: the segment `1e1` between the
first two dots of `a.1e1.c` is not all decimal digits, so the claim
demands a split at the first dot — but the code's numeric test is
JavaScript `Number` coercion, which accepts `1e1`, so it splits at the
second dot. -/
theorem parseAssemblyAndChr_counterexample :
    ("1e1".data.all Char.isDigit) = false ∧
    parseAssemblyAndChr "a.1e1.c" = ⟨"a.1e1", "c"⟩ ∧
    parseAssemblyAndChr "a.1e1.c" ≠ ⟨"a", "1e1.c"⟩ := by
  refine ⟨by decide, ?_, ?_⟩ <;> decide

/-- C9 (amended).  Heuristic assembly/chr split: with zero dots the
whole token is the `assemblyName` and `chr` is empty; with one dot the
token splits there; with two or more dots (token
`a ++ "." ++ b ++ "." ++ c`, `a` and `b` dot-free) the split is at the
second dot exactly when the middle segment `b` is non-empty and
numeric under JavaScript `Number` coercion (`!Number.isNaN(+b)`) —
which holds for every all-decimal-digit segment, but also for forms
such as exponents, hex/octal/binary literals, `Infinity`, signed
numbers and whitespace — and at the first dot otherwise. -/
theorem parseAssemblyAndChr_spec (s a b c : String) :
    ('.' ∉ s.data → parseAssemblyAndChr s = ⟨s, ""⟩) ∧
    ('.' ∉ a.data → '.' ∉ b.data →
      parseAssemblyAndChr (a ++ "." ++ b) = ⟨a, b⟩) ∧
    ('.' ∉ a.data → '.' ∉ b.data → b.length > 0 ∧ jsNumberNotNaN b →
      parseAssemblyAndChr (a ++ "." ++ b ++ "." ++ c) = ⟨a ++ "." ++ b, c⟩) ∧
    ('.' ∉ a.data → '.' ∉ b.data → ¬(b.length > 0 ∧ jsNumberNotNaN b) →
      parseAssemblyAndChr (a ++ "." ++ b ++ "." ++ c) = ⟨a, b ++ "." ++ c⟩) ∧
    (b.data ≠ [] → b.data.all Char.isDigit = true → jsNumberNotNaN b = true) :=
  ⟨parseAssemblyAndChr_no_dot s,
    parseAssemblyAndChr_one_dot a b,
    parseAssemblyAndChr_two_dots_pos a b c,
    parseAssemblyAndChr_two_dots_neg a b c,
    digits_jsNumberNotNaN b⟩

/-- Witness for C9 at concrete tokens: `mm10` (no dot), `hg38.chr1`
(one dot), `hg38.1.chr1` (numeric middle, split at second dot) and
`mm10.chr1.random` (non-numeric middle, split at first dot), and the
all-digit segment `1` is JavaScript-numeric. -/
theorem parseAssemblyAndChr_spec_witness :
    parseAssemblyAndChr "mm10" = ⟨"mm10", ""⟩ ∧
    parseAssemblyAndChr ("hg38" ++ "." ++ "chr1") = ⟨"hg38", "chr1"⟩ ∧
    parseAssemblyAndChr ("hg38" ++ "." ++ "1" ++ "." ++ "chr1")
      = ⟨"hg38" ++ "." ++ "1", "chr1"⟩ ∧
    parseAssemblyAndChr ("mm10" ++ "." ++ "chr1" ++ "." ++ "random")
      = ⟨"mm10", "chr1" ++ "." ++ "random"⟩ ∧
    jsNumberNotNaN "1" = true := by
  refine ⟨(parseAssemblyAndChr_spec "mm10" "a" "b" "c").1 (by decide),
    (parseAssemblyAndChr_spec "s" "hg38" "chr1" "c").2.1 (by decide) (by decide),
    (parseAssemblyAndChr_spec "s" "hg38" "1" "chr1").2.2.1 (by decide)
      (by decide) ⟨by decide, by decide⟩,
    (parseAssemblyAndChr_spec "s" "mm10" "chr1" "random").2.2.2.1 (by decide)
      (by decide) ?_,
    (parseAssemblyAndChr_spec "s" "a" "1" "c").2.2.2.2 (by decide) (by decide)⟩
  intro hcontra
  exact absurd hcontra.2 (by decide)

/-! ## FASTA materialization (`src/util/fastaUtils.ts`)

`processFeaturesToFasta` walks every feature's per-sample alignment
against the reference sequence, writing into one `-`-prefilled
character array per sample and recording insertions (runs of reference
gaps) per reference position; `expandWithInsertions` then splices the
per-position maximum insertion into every row, right to left.

The two index loops are embedded with an explicit fuel argument so that
the definitions stay structurally recursive (and hence computable by
the kernel); the fuel is always called with `alignment.length`, which
bounds the number of iterations of the source's `for`/`while` loops. -/

/-- A visible sample (only the `id` field is consulted here). -/
structure Sample where
  id : String
  deriving Repr, DecidableEq

/-- The region slice of a query (`region.start`/`region.end`). -/
structure FastaRegion where
  start : Int
  end_ : Int
  deriving Repr, DecidableEq

/-- A feature as `processFeaturesToFasta` reads it: `feature.get('start')`,
`feature.get('seq')` and, per sample, the alignment's `seq` (the only
field of the alignment record this code consults). -/
structure FastaFeature where
  start : Int
  seq : EncodedSequence
  alignments : List (String × EncodedSequence)
  deriving Repr, DecidableEq

/-- One recorded insertion. -/
structure InsertionInfo where
  sequence : List Char
  sampleIndex : Nat
  deriving Repr, DecidableEq

/-- `insertionsAtPosition`, a `Map` keyed by reference position in
key-insertion order. -/
abbrev InsMap : Type := List (Int × List InsertionInfo)

/-- `map.get(k)`. -/
def insLookup (m : InsMap) (k : Int) : Option (List InsertionInfo) :=
  (List.find? (fun p => p.1 = k) m).map (fun p => p.2)

/-- `map.set(k, v)`: overwrite in place, else append in insertion order. -/
def insSet (m : InsMap) (k : Int) (v : List InsertionInfo) : InsMap :=
  if List.any m (fun p => p.1 = k) then
    List.map (fun p => if p.1 = k then (k, v) else p) m
  else m ++ [(k, v)]

/-- `new Map(samples.map((s, i) => [s.id, i])).get(id)`: the row index
of a sample id (the last occurrence wins, as in a JavaScript `Map`
built from a list of pairs). -/
def sampleRow (samples : List Sample) (id : String) : Option Nat :=
  (samples.enum.reverse.find? (fun p => p.2.id = id)).map (fun p => p.1)

/-- The `while (i < alignment.length && getBaseCode(seq, i) === CODE_GAP)`
run collector: the insertion characters and the index of the first
column after the run.  `fuel` bounds the iteration count and is always
instantiated with `align.length`. -/
def insertionRun (seq align : EncodedSequence) : Nat → Nat → List Char × Nat
  | 0, i => ([], i)
  | fuel + 1, i =>
    if i < align.length ∧ getBaseCode seq i = CODE_GAP then
      ((if getBaseCode align i ≠ CODE_GAP ∧ getBaseCode align i ≠ CODE_SPACE
          then decodeBaseLowerChar align i else '-') ::
        (insertionRun seq align fuel (i + 1)).1,
       (insertionRun seq align fuel (i + 1)).2)
    else ([], i)

/-- The write of one non-reference-gap column into the sample's output
array (`rowArray[pos] = …` under the bounds check). -/
def writeCell (seq align : EncodedSequence) (showAllLetters : Bool)
    (leftCoord regionStart rlen : Int) (i o : Nat)
    (rowArray : List Char) : List Char :=
  if 0 ≤ leftCoord + o - regionStart ∧ leftCoord + o - regionStart < rlen then
    if getBaseCode align i = CODE_GAP then
      rowArray.set (leftCoord + o - regionStart).toNat '-'
    else if getBaseCode align i ≠ CODE_SPACE then
      if showAllLetters then
        rowArray.set (leftCoord + o - regionStart).toNat
          (decodeBaseLowerChar align i)
      else if getLowerCode (getBaseCode seq i) =
          getLowerCode (getBaseCode align i) then
        rowArray.set (leftCoord + o - regionStart).toNat '.'
      else
        rowArray.set (leftCoord + o - regionStart).toNat
          (decodeBaseLowerChar align i)
    else rowArray
  else rowArray

/-- The record step for one insertion run (`insertionsAtPosition.set`
under the `insertionSequence.length > 0` and position checks). -/
def recordInsertion (insertions : InsMap) (run : List Char)
    (leftCoord regionStart rlen : Int) (o : Nat) (row : Nat) : InsMap :=
  if run.length > 0 then
    if 0 ≤ leftCoord + o - regionStart ∧ leftCoord + o - regionStart ≤ rlen then
      insSet insertions (leftCoord + o - regionStart)
        ((insLookup insertions (leftCoord + o - regionStart)).getD []
          ++ [⟨run, row⟩])
    else insertions
  else insertions

/-- The `for (let i = 0, o = 0; i < alignment.length; i++)` loop over
one sample's alignment.  `fuel` bounds the iteration count and is
always instantiated with `align.length`. -/
def scanLoop (seq align : EncodedSequence)
    (leftCoord regionStart rlen : Int)
    (includeInsertions showAllLetters : Bool) (row : Nat) :
    Nat → Nat → Nat → List Char → InsMap → List Char × InsMap
  | 0, _, _, rowArray, insertions => (rowArray, insertions)
  | fuel + 1, i, o, rowArray, insertions =>
    if i < align.length then
      if getBaseCode seq i ≠ CODE_GAP then
        scanLoop seq align leftCoord regionStart rlen includeInsertions
          showAllLetters row fuel (i + 1) (o + 1)
          (writeCell seq align showAllLetters leftCoord regionStart rlen i o
            rowArray)
          insertions
      else if includeInsertions then
        scanLoop seq align leftCoord regionStart rlen includeInsertions
          showAllLetters row fuel
          (insertionRun seq align align.length i).2 o rowArray
          (recordInsertion insertions (insertionRun seq align align.length i).1
            leftCoord regionStart rlen o row)
      else
        scanLoop seq align leftCoord regionStart rlen includeInsertions
          showAllLetters row fuel (i + 1) o rowArray insertions
    else (rowArray, insertions)

/-- The per-sample step of the feature loop: skip samples outside the
visible sample list, otherwise scan the alignment into the sample's
output row. -/
def processAlignment (samples : List Sample) (regionStart rlen : Int)
    (includeInsertions showAllLetters : Bool) (leftCoord : Int)
    (seq : EncodedSequence) (st : List (List Char) × InsMap)
    (entry : String × EncodedSequence) : List (List Char) × InsMap :=
  match sampleRow samples entry.1 with
  | none => st
  | some row =>
    ((st.1.set row
        (scanLoop seq entry.2 leftCoord regionStart rlen includeInsertions
          showAllLetters row entry.2.length 0 0 (st.1.getD row []) st.2).1),
      (scanLoop seq entry.2 leftCoord regionStart rlen includeInsertions
        showAllLetters row entry.2.length 0 0 (st.1.getD row []) st.2).2)

/-- The per-feature step: fold the feature's alignment entries. -/
def processFeature (samples : List Sample) (regionStart rlen : Int)
    (includeInsertions showAllLetters : Bool)
    (st : List (List Char) × InsMap) (feature : FastaFeature) :
    List (List Char) × InsMap :=
  feature.alignments.foldl
    (processAlignment samples regionStart rlen includeInsertions
      showAllLetters feature.start feature.seq) st

/-- Phase 1 of `processFeaturesToFasta`: the feature loop, starting
from one `-`-prefilled array of the region's length per sample and an
empty insertion map. -/
def collectPhase (regionStart rlen : Int) (samples : List Sample)
    (includeInsertions showAllLetters : Bool)
    (features : List FastaFeature) : List (List Char) × InsMap :=
  features.foldl
    (processFeature samples regionStart rlen includeInsertions showAllLetters)
    (samples.map fun _ => List.replicate rlen.toNat '-', ([] : InsMap))

/-- The maximum insertion length at one position. -/
def maxInsertionLen (insertions : List InsertionInfo) : Nat :=
  insertions.foldl
    (fun m ins => if ins.sequence.length > m then ins.sequence.length else m) 0

/-- The per-position sample-to-insertion map (`sampleInsertions`): as in
a JavaScript `Map`, the last write for a sample index wins. -/
def sampleIns (insertions : List InsertionInfo) (idx : Nat) :
    Option (List Char) :=
  (insertions.reverse.find? (fun ins => ins.sampleIndex = idx)).map
    (fun ins => ins.sequence)

/-- `str.padEnd(n, c)` (never truncates). -/
def padEnd (s : List Char) (n : Nat) (c : Char) : List Char :=
  s ++ List.replicate (n - s.length) c

/-- The splice performed for one sample at one insertion position: the
sample's own insertion padded to the position's maximum, or all gaps
(also when the stored insertion is the empty string, which is falsy in
JavaScript). -/
def expandRow (insertions : List InsertionInfo) (pos : Int)
    (sampleIdx : Nat) (rowArray : List Char) : List Char :=
  match sampleIns insertions sampleIdx with
  | some s =>
    if s.isEmpty then
      jsSpliceInsertList rowArray pos
        (List.replicate (maxInsertionLen insertions) '-')
    else
      jsSpliceInsertList rowArray pos (padEnd s (maxInsertionLen insertions) '-')
  | none =>
    jsSpliceInsertList rowArray pos
      (List.replicate (maxInsertionLen insertions) '-')

/-- The `for (sampleIdx …)` loop at one insertion position. -/
def expandAtPos (arrays : List (List Char)) (pos : Int)
    (insertions : List InsertionInfo) (numSamples : Nat) :
    List (List Char) :=
  (List.range numSamples).foldl
    (fun arrs sampleIdx =>
      arrs.set sampleIdx (expandRow insertions pos sampleIdx
        (arrs.getD sampleIdx [])))
    arrays

/-- Insert into a descending-sorted list (the comparator
`(a, b) => b - a`). -/
def insertDesc (x : Int) : List Int → List Int
  | [] => [x]
  | y :: ys => if y ≤ x then x :: y :: ys else y :: insertDesc x ys

/-- `[...keys].sort((a, b) => b - a)`: the insertion positions in
descending order (insertion sort; the keys are distinct, so any stable
or unstable sort agrees). -/
def sortedPositionsDesc (m : InsMap) : List Int :=
  (List.map (fun p => p.1) m).foldr insertDesc []

/-- `expandWithInsertions(outputRowsArrays, insertionsAtPosition,
numSamples)` (before the final join). -/
def expandWithInsertions (arrays : List (List Char)) (m : InsMap)
    (numSamples : Nat) : List (List Char) :=
  (sortedPositionsDesc m).foldl
    (fun arrs pos => expandAtPos arrs pos ((insLookup m pos).getD []) numSamples)
    arrays

/-- `processFeaturesToFasta({regions, samples, showAllLetters,
includeInsertions, features})`, returning the joined row strings. -/
def processFeaturesToFasta (regions : List FastaRegion)
    (samples : List Sample) (showAllLetters includeInsertions : Bool)
    (features : List FastaFeature) : List String :=
  let region := regions.headD ⟨0, 0⟩
  let st := collectPhase region.start (region.end_ - region.start) samples
    includeInsertions showAllLetters features
  if includeInsertions ∧ st.2.length > 0 then
    (expandWithInsertions st.1 st.2 samples.length).map String.mk
  else st.1.map String.mk

/-- The S6 scenario's single feature: reference `AC--GTAC` at 100,
visible samples `a1`/`a2` aligned `AC--GTAC` (gaps only over the
reference gap), non-visible `a3` aligned `ACTTGTAC` (the `TT`
insertion that produced the reference gap). -/
def s6Feature : FastaFeature :=
  { start := 100
    seq := encodeSequence "AC--GTAC".data
    alignments :=
      [("a1", encodeSequence "AC--GTAC".data),
        ("a2", encodeSequence "AC--GTAC".data),
        ("a3", encodeSequence "ACTTGTAC".data)] }

/-- C8.  On scenario S6 the code violates the hidden-sample insertion
rule: `processFeaturesToFasta` with `includeInsertions` and visible
samples `a1`,`a2` over the region `[100, 106)` returns `ac--gtac` twice
(length 8), not the `acgtac` of length 6 that the claim — and the
repository's own regression test `includeInsertions - insertion only in
non-visible sample should not add gaps` — requires.  The scan records
the visible samples' gap-only runs over the reference gap as
"insertions" (`insertionSequence` is `--`, which is non-empty), so the
non-visible sample's insertion expands the visible output with gap
columns after all. -/
theorem processFeaturesToFasta_hidden_insertion_bug :
    processFeaturesToFasta [⟨100, 106⟩] [⟨"a1"⟩, ⟨"a2"⟩] true true [s6Feature]
      = ["ac--gtac", "ac--gtac"] ∧
    processFeaturesToFasta [⟨100, 106⟩] [⟨"a1"⟩, ⟨"a2"⟩] true true [s6Feature]
      ≠ ["acgtac", "acgtac"] ∧
    (processFeaturesToFasta [⟨100, 106⟩] [⟨"a1"⟩, ⟨"a2"⟩] true true
      [s6Feature]).map String.length = [8, 8] := by
  refine ⟨by decide, by decide, by decide⟩
